import Mathlib

/-!
Verification of the momentum trading engine in `marco_momentum.py`.

The embedding models the computational core of the script:
prices are exact rationals, a price table is the forward-filled
`data` DataFrame (a row per trading date, a cell per asset, `none`
standing for a missing/NaN observation), and each pandas operation
used by the script is translated to an explicit list computation.
-/

set_option maxRecDepth 100000

namespace Marco

attribute [local semireducible] Rat.add Rat.mul Rat.sub Rat.inv

/-- A calendar date: `month` is a linear month index (year * 12 + zero-based
month-of-year, proleptic Gregorian), `day` is the 1-based day of the month.
Dates are ordered lexicographically. -/
structure Date where
  month : Nat
  day : Nat
deriving DecidableEq

instance : LE Date :=
  ⟨fun a b => a.month < b.month ∨ (a.month = b.month ∧ a.day ≤ b.day)⟩

instance : LT Date :=
  ⟨fun a b => a.month < b.month ∨ (a.month = b.month ∧ a.day < b.day)⟩

instance (a b : Date) : Decidable (a ≤ b) :=
  inferInstanceAs (Decidable (_ ∨ _))

instance (a b : Date) : Decidable (a < b) :=
  inferInstanceAs (Decidable (_ ∨ _))

theorem Date.le_def (a b : Date) :
    (a ≤ b) = (a.month < b.month ∨ (a.month = b.month ∧ a.day ≤ b.day)) := rfl

theorem Date.lt_def (a b : Date) :
    (a < b) = (a.month < b.month ∨ (a.month = b.month ∧ a.day < b.day)) := rfl

theorem Date.not_lt {a b : Date} : ¬a < b ↔ b ≤ a := by
  cases a; cases b
  rw [Date.lt_def, Date.le_def]
  simp only []
  omega

theorem Date.not_le {a b : Date} : ¬a ≤ b ↔ b < a := by
  cases a; cases b
  rw [Date.lt_def, Date.le_def]
  simp only []
  omega

/-- Gregorian leap-year test. -/
def isLeap (y : Nat) : Bool :=
  y % 4 == 0 && (y % 100 != 0 || y % 400 == 0)

/-- Number of calendar days in linear month `m` (0 = January of year 0). -/
def daysInMonth (m : Nat) : Nat :=
  let mo := m % 12
  if mo == 1 then (if isLeap (m / 12) then 29 else 28)
  else if mo == 3 || mo == 5 || mo == 8 || mo == 10 then 30
  else 31

/-- `d - pd.offsets.MonthBegin(1)`: the first day of `d`'s month, or of the
previous month when `d` is already a month begin. -/
def monthBegin (d : Date) : Date :=
  if d.day ≤ 1 then ⟨d.month - 1, 1⟩ else ⟨d.month, 1⟩

/-- The forward-filled price DataFrame `data`: `dates` is its (ascending)
index, `assets` the number of columns, and `rows.getD i` the row of per-asset
prices at `dates.getD i` (`none` = NaN, i.e. an asset with no observation yet). -/
structure PriceTable where
  dates : List Date
  assets : Nat
  rows : List (List (Option ℚ))

/-- `data.iloc[i][j]`: price of asset `j` on the `i`-th trading date. -/
def priceAt (tbl : PriceTable) (j i : Nat) : Option ℚ :=
  (tbl.rows.getD i []).getD j none

/-- `priceAt` with NaN read as 0, used only to state formulas about defined
momentum values (whose windows contain no NaN). -/
def priceD (tbl : PriceTable) (j k : Nat) : ℚ :=
  (priceAt tbl j k).getD 0

/-- `calculate_momentum(prices)` from the source: `np.nan` for a window of
fewer than 252 prices, else the 13612W blend of the prices at positions
`-1, -21, -63, -126, -252` from the end of the window. -/
def calculate_momentum (prices : List ℚ) : Option ℚ :=
  if prices.length < 252 then none
  else
    let p0 := prices.getD (prices.length - 1) 0
    let p1 := prices.getD (prices.length - 21) 0
    let p3 := prices.getD (prices.length - 63) 0
    let p6 := prices.getD (prices.length - 126) 0
    let p12 := prices.getD (prices.length - 252) 0
    some (12 * (p0 / p1 - 1) + 4 * (p0 / p3 - 1) + 2 * (p0 / p6 - 1) + (p0 / p12 - 1))

/-- `data.rolling(window=252).apply(calculate_momentum)` at column `j`, row `i`:
pandas yields NaN unless the window holds 252 non-NaN observations
(`min_periods` defaults to the window size), otherwise it applies
`calculate_momentum` to the trailing window `rows[i-251..i]`. -/
def rollingMomentum (tbl : PriceTable) (j i : Nat) : Option ℚ :=
  if i + 1 < 252 then none
  else if ((List.range 252).map (fun k => priceAt tbl j (i + 1 - 252 + k))).any (·.isNone) then
    none
  else
    calculate_momentum
      (((List.range 252).map (fun k => priceAt tbl j (i + 1 - 252 + k))).map (fun c => c.getD 0))

/-- Number of non-NaN price observations for asset `j` in the trailing
252-row window ending at row `i`. -/
def trailingObs (tbl : PriceTable) (j i : Nat) : Nat :=
  let lo := i + 1 - 252
  ((List.range (i + 1 - lo)).map (fun k => priceAt tbl j (lo + k))).countP (·.isSome)

/-- Position of the first occurrence of `d` in a date index
(`date in index` / `.loc[date]` row lookup). -/
def idxOf (d : Date) : List Date → Option Nat
  | [] => none
  | x :: xs => if x = d then some 0 else (idxOf d xs).map (· + 1)

/-- The row `momentum.iloc[i]` restricted to its non-NaN entries:
the (asset, score) pairs, in column order. -/
def momentumRow (tbl : PriceTable) (i : Nat) : List (Nat × ℚ) :=
  (List.range tbl.assets).filterMap
    (fun j => (rollingMomentum tbl j i).map (fun q => (j, q)))

/-- `momentum.loc[d].dropna()` as (asset, score) pairs; `[]` when `d` is not a
trading date (so that both skip conditions of the loop's first guard —
`d not in momentum.index` and `momentum.loc[d].isnull().all()` — read
`scoredAt tbl d = []`). -/
def scoredAt (tbl : PriceTable) (d : Date) : List (Nat × ℚ) :=
  match idxOf d tbl.dates with
  | none => []
  | some i => momentumRow tbl i

/-- Number of assets with a defined momentum score at date `d`. -/
def definedCount (tbl : PriceTable) (d : Date) : Nat :=
  (scoredAt tbl d).length

/-- Stable insertion into a list sorted by score descending: the inserted
element goes in front of existing elements of equal score only if it is
strictly larger (so earlier columns win ties, as `nlargest(keep='first')`). -/
def insertDesc (x : Nat × ℚ) : List (Nat × ℚ) → List (Nat × ℚ)
  | [] => [x]
  | y :: ys => if Rat.blt x.2 y.2 then y :: insertDesc x ys else x :: y :: ys

/-- Stable sort by score descending (`Series.nlargest` ranking). -/
def sortDesc : List (Nat × ℚ) → List (Nat × ℚ)
  | [] => []
  | x :: xs => insertDesc x (sortDesc xs)

/-- `momentum.loc[d].dropna().nlargest(top_n).index`: the columns of the `N`
largest defined scores at `d` (at most `N`; fewer when fewer are defined). -/
def topAssets (tbl : PriceTable) (N : Nat) (d : Date) : List Nat :=
  ((sortDesc (scoredAt tbl d)).take N).map (fun x => x.1)

/-- Row indices of the holding window
`data.loc[d - MonthBegin(1) : d]` (both endpoints inclusive). -/
def windowIdxs (tbl : PriceTable) (d : Date) : List Nat :=
  (List.range tbl.dates.length).filter
    (fun k => decide (monthBegin d ≤ tbl.dates.getD k ⟨0, 0⟩ ∧ tbl.dates.getD k ⟨0, 0⟩ ≤ d))

/-- The day-over-day return of asset `j` between rows `a` and `b` of the
price table (`pct_change`): NaN when either price is missing. -/
def assetRet (tbl : PriceTable) (j a b : Nat) : Option ℚ :=
  match priceAt tbl j b, priceAt tbl j a with
  | some pb, some pa => some (pb / pa - 1)
  | _, _ => none

/-- `month_data.pct_change().dropna().mean(axis=1)`: for each consecutive pair
of window rows, keep the row only when every selected asset has a defined
return there, and average across the selected assets. -/
def windowReturns (tbl : PriceTable) (top : List Nat) (d : Date) : List ℚ :=
  ((windowIdxs tbl d).zip (windowIdxs tbl d).tail).filterMap (fun p =>
    if (top.map (fun j => assetRet tbl j p.1 p.2)).any (·.isNone) then none
    else some ((((top.map (fun j => assetRet tbl j p.1 p.2)).filterMap id).sum)
      / (top.length : ℚ)))

/-- One pass of the backtest loop body at date `d`, up to the state update:
`none` when any of the three `continue` guards fires, otherwise the pair of
the compounded holding-period return `cumulative_return` and the selected
top assets. -/
def rebalanceOutcome (tbl : PriceTable) (N : Nat) (d : Date) : Option (ℚ × List Nat) :=
  if (scoredAt tbl d).isEmpty then none
  else if (topAssets tbl N d).length < N then none
  else if (windowReturns tbl (topAssets tbl N d) d).isEmpty then none
  else
    some ((((windowReturns tbl (topAssets tbl N d) d).map (fun r => 1 + r)).prod) - 1,
      topAssets tbl N d)

/-- The simulation accumulator: `portfolio_value`, the recorded
`(portfolio_dates, portfolio_values[1:])` pairs, and `current_portfolio`. -/
structure PortfolioState where
  value : ℚ
  history : List (Date × ℚ)
  held : Option (List Nat)
deriving DecidableEq

/-- The state before the loop: `portfolio_value = initial_capital`,
`portfolio_values = [initial_capital]`, `portfolio_dates = []`,
`current_portfolio = None`. -/
def initState (init : ℚ) : PortfolioState :=
  ⟨init, [], none⟩

/-- One iteration of `for date in rebalancing_dates`. -/
def step (tbl : PriceTable) (N : Nat) (st : PortfolioState) (d : Date) : PortfolioState :=
  match rebalanceOutcome tbl N d with
  | none => st
  | some (cum, top) =>
    let v := st.value * (1 + cum)
    ⟨v, st.history ++ [(d, v)], some top⟩

/-- The whole backtest loop over a list of candidate rebalance dates. -/
def simulate (tbl : PriceTable) (N : Nat) (st : PortfolioState) (ds : List Date) : PortfolioState :=
  ds.foldl (step tbl N) st

/-- `data.resample('M').last().index`: the last *calendar* day of every month
from the table's first to its last date (resampling bins cover the whole
span, whether or not a month contains a trading date). -/
def monthEnds (dates : List Date) : List Date :=
  match dates.head?, dates.getLast? with
  | some a, some b =>
    (List.range (b.month + 1 - a.month)).map
      (fun k => ⟨a.month + k, daysInMonth (a.month + k)⟩)
  | _, _ => []

/-- `momentum.dropna().index[0]`: the first trading date at which *every*
column has a defined momentum score (`DataFrame.dropna` drops every row
containing any NaN), `None` when no such date exists. -/
def momentumStartDate (tbl : PriceTable) : Option Date :=
  ((List.range tbl.dates.length).find?
      (fun i => (List.range tbl.assets).all (fun j => (rollingMomentum tbl j i).isSome))).map
    (fun i => tbl.dates.getD i ⟨0, 0⟩)

/-- `rebalancing_dates` after the `momentum_start_date` guard: all month ends,
filtered to dates strictly after the start date only when that start date
exists. -/
def rebalancing_dates (tbl : PriceTable) : List Date :=
  match momentumStartDate tbl with
  | none => monthEnds tbl.dates
  | some s => (monthEnds tbl.dates).filter (fun d => decide (s < d))

/-- The full backtest: run the loop over `rebalancing_dates` from the
initial state. -/
def backtest (tbl : PriceTable) (N : Nat) (init : ℚ) : PortfolioState :=
  simulate tbl N (initState init) (rebalancing_dates tbl)

/-- The holding-period returns realized by the successful rebalances among
`ds`, in order. -/
def periodReturns (tbl : PriceTable) (N : Nat) (ds : List Date) : List ℚ :=
  ds.filterMap (fun d => (rebalanceOutcome tbl N d).map (fun x => x.1))

/-- `portfolio_values`: the initial capital followed by the recorded values. -/
def portfolioValues (init : ℚ) (st : PortfolioState) : List ℚ :=
  init :: st.history.map (fun x => x.2)

/-- `portfolio_mtd_return`: `(portfolio_values[-1] / portfolio_values[-2] - 1)
* 100 if len(portfolio_values) > 1 else 0`. -/
def portfolio_mtd_return (init : ℚ) (st : PortfolioState) : ℚ :=
  if 1 < (portfolioValues init st).length then
    ((portfolioValues init st).getD ((portfolioValues init st).length - 1) 0
        / (portfolioValues init st).getD ((portfolioValues init st).length - 2) 0 - 1) * 100
  else 0

/-! ### Definitions taken from the specification's words, for comparison
with the code-derived definitions above. -/

/-- The momentum formula as the specification words it: `p1, p3, p6, p12` are
the prices `21`, `63`, `126` and `252` trading days before `p0` (which sits at
row `i`), under the same definedness condition as the rolling computation. -/
def specMomentum (tbl : PriceTable) (j i : Nat) : Option ℚ :=
  if i + 1 < 252 then none
  else
    let lo := i + 1 - 252
    let window := (List.range 252).map (fun k => priceAt tbl j (lo + k))
    if window.any (·.isNone) then none
    else
      some (12 * (priceD tbl j i / priceD tbl j (i - 21) - 1)
        + 4 * (priceD tbl j i / priceD tbl j (i - 63) - 1)
        + 2 * (priceD tbl j i / priceD tbl j (i - 126) - 1)
        + (priceD tbl j i / priceD tbl j (i - 252) - 1))

/-- The "momentum start date" as the specification words it: the first date
at which *at least one* asset has a defined momentum score. -/
def firstAnyDefinedDate (tbl : PriceTable) : Option Date :=
  ((List.range tbl.dates.length).find?
      (fun i => (List.range tbl.assets).any (fun j => (rollingMomentum tbl j i).isSome))).map
    (fun i => tbl.dates.getD i ⟨0, 0⟩)

/-- The portfolio MTD return as the specification words it: the ratio of the
last two entries of the simulator's `history` minus one, zero when `history`
has fewer than two entries. -/
def claimMtd (st : PortfolioState) : ℚ :=
  let vs := st.history.map (fun x => x.2)
  if vs.length < 2 then 0
  else vs.getD (vs.length - 1) 0 / vs.getD (vs.length - 2) 0 - 1

/-! ### Concrete tables used by counterexamples and witnesses. -/

/-- The dates `1..day n` of linear month `m`. -/
def monthDays (m n : Nat) : List Date :=
  (List.range n).map (fun k => ⟨m, k + 1⟩)

/-- 252 trading dates in year 0: every day of January through August
(31+29+31+30+31+30+31+31 = 244 days), September 1–7, then September 30 —
so the 252nd trading date is exactly the calendar end of September. -/
def datesJanSep : List Date :=
  monthDays 0 31 ++ monthDays 1 29 ++ monthDays 2 31 ++ monthDays 3 30 ++
    monthDays 4 31 ++ monthDays 5 30 ++ monthDays 6 31 ++ monthDays 7 31 ++
    monthDays 8 7 ++ [⟨8, 30⟩]

/-- 300 trading dates, one asset, all prices 1 except 2 at row 279
(= 20 trading days before row 299). -/
def tblC2 : PriceTable :=
  ⟨(List.range 300).map (fun k => ⟨k, 1⟩), 1,
   (List.range 300).map (fun k => [some (if k == 279 then (2:ℚ) else 1)])⟩

/-- Two assets over `datesJanSep`: asset 0 always priced 1, asset 1 never
observed (all NaN). -/
def tblC3 : PriceTable :=
  ⟨datesJanSep, 2, (List.range 252).map (fun _ => [some (1:ℚ), none])⟩

/-- Three trading dates spanning two months, one asset, far too little
history for any momentum value. -/
def tblC4 : PriceTable :=
  ⟨[⟨0, 1⟩, ⟨0, 2⟩, ⟨1, 1⟩], 1, [[some 1], [some 1], [some 1]]⟩

/-- Thirty trading dates January 1–30 of year 0 (January 31 is not a trading
date), one asset, price 1 throughout. -/
def tblC5 : PriceTable :=
  ⟨monthDays 0 30, 1, (List.range 30).map (fun _ => [some (1:ℚ)])⟩

/-- `datesJanSep` followed by all of October (283 trading dates), one asset,
all prices 1 except 2 on the last date (October 31). -/
def tblC8 : PriceTable :=
  ⟨datesJanSep ++ monthDays 9 31, 1,
   (List.range 283).map (fun k => [some (if k == 282 then (2:ℚ) else 1)])⟩

/-- A table with no trading dates at all. -/
def emptyTbl : PriceTable :=
  ⟨[], 1, []⟩

/-! ### Helper lemmas. -/

theorem idxOf_lt_length {d : Date} : ∀ {l : List Date} {i : Nat},
    idxOf d l = some i → i < l.length := by
  intro l
  induction l with
  | nil => intro i h; simp [idxOf] at h
  | cons x xs ih =>
    intro i h
    unfold idxOf at h
    split at h
    · cases h; exact Nat.zero_lt_succ xs.length
    · cases hi : idxOf d xs with
      | none => rw [hi] at h; simp at h
      | some k =>
        rw [hi] at h
        have hk := ih hi
        have hki : k + 1 = i := Option.some.inj h
        simp only [List.length_cons]
        omega

theorem insertDesc_length (x : Nat × ℚ) : ∀ (l : List (Nat × ℚ)),
    (insertDesc x l).length = l.length + 1 := by
  intro l
  induction l with
  | nil => rfl
  | cons y ys ih =>
    unfold insertDesc
    split
    · simpa using ih
    · rfl

theorem sortDesc_length : ∀ (l : List (Nat × ℚ)), (sortDesc l).length = l.length := by
  intro l
  induction l with
  | nil => rfl
  | cons x xs ih => simp [sortDesc, insertDesc_length, ih]

theorem topAssets_length (tbl : PriceTable) (N : Nat) (d : Date) :
    (topAssets tbl N d).length = min N (definedCount tbl d) := by
  simp [topAssets, definedCount, sortDesc_length]

theorem filterMap_id_length {l : List (Option ℚ)} (h : l.any (·.isNone) = false) :
    (l.filterMap id).length = l.length := by
  induction l with
  | nil => rfl
  | cons c cs ih =>
    simp only [List.any_cons, Bool.or_eq_false_iff] at h
    cases c with
    | none => simp at h
    | some q => simp [List.filterMap_cons, ih h.2]

theorem sum_map_one_add : ∀ (l : List ℚ),
    (l.map (fun r => 1 + r)).sum = l.length + l.sum := by
  intro l
  induction l with
  | nil => simp
  | cons r rs ih =>
    simp only [List.map_cons, List.sum_cons, ih, List.length_cons]
    push_cast
    ring

/-! ### Theorems. -/

/-- Claim C6 (confirmed): the momentum score of asset `j` at row `i` is
undefined exactly when fewer than 252 non-missing trailing observations
exist in the 252-row window ending at `i`; with 252 of them the score is a
(finite) rational, `some q`. -/
theorem score_undefined_iff (tbl : PriceTable) (j i : Nat) :
    (rollingMomentum tbl j i = none ↔ trailingObs tbl j i < 252) ∧
      (252 ≤ trailingObs tbl j i → ∃ q, rollingMomentum tbl j i = some q) := by
  have hmain : rollingMomentum tbl j i = none ↔ trailingObs tbl j i < 252 := by
    unfold rollingMomentum trailingObs
    by_cases h : i + 1 < 252
    · have hlo : i + 1 - 252 = 0 := by omega
      simp only [if_pos h, hlo, Nat.sub_zero, true_iff]
      calc ((List.range (i + 1)).map (fun k => priceAt tbl j (0 + k))).countP (·.isSome)
          ≤ ((List.range (i + 1)).map (fun k => priceAt tbl j (0 + k))).length :=
            List.countP_le_length _
        _ < 252 := by simpa using h
    · have h252 : i + 1 - (i + 1 - 252) = 252 := by omega
      simp only [if_neg h, h252]
      set w := (List.range 252).map (fun k => priceAt tbl j (i + 1 - 252 + k)) with hw
      have hlen : w.length = 252 := by simp [hw]
      by_cases hany : w.any (·.isNone) = true
      · simp only [hany, if_pos, true_iff]
        obtain ⟨c, hc, hcnone⟩ := List.any_eq_true.mp hany
        have hne : w.countP (·.isSome) ≠ w.length := by
          intro hEq
          have := List.countP_eq_length.mp hEq c hc
          rw [Option.isNone_iff_eq_none.mp hcnone] at this
          simp at this
        have := Nat.lt_of_le_of_ne (List.countP_le_length _) hne
        omega
      · have hany' : w.any (·.isNone) = false := by
          cases hb : w.any (·.isNone)
          · rfl
          · exact absurd hb hany
        simp only [hany', Bool.false_eq_true, if_neg, not_false_eq_true]
        have hcount : w.countP (·.isSome) = w.length := by
          apply List.countP_eq_length.mpr
          intro c hc
          cases hcs : c with
          | none =>
            exfalso
            apply hany
            exact List.any_eq_true.mpr ⟨c, hc, by simp [hcs]⟩
          | some q => simp
        constructor
        · intro hc
          exfalso
          unfold calculate_momentum at hc
          rw [if_neg (by simp [hlen])] at hc
          exact Option.some_ne_none _ hc
        · intro hlt
          omega
  refine ⟨hmain, fun hobs => ?_⟩
  cases hm : rollingMomentum tbl j i with
  | none => exact absurd (hmain.mp hm) (by omega)
  | some q => exact ⟨q, rfl⟩

/-- Claim C6 witness: at row 299 of `tblC2` there are 252 trailing
observations, and indeed a defined score exists. -/
theorem score_undefined_iff_witness :
    ∃ q, rollingMomentum tblC2 0 299 = some q :=
  (score_undefined_iff tblC2 0 299).2 (by decide)

/-- C2, amended: whenever the rolling momentum is defined, it equals the
13612W blend with lookbacks of 20, 62, 125 and 251 trading days before the
evaluation row (`iloc[-21]`, `-63`, `-126`, `-252` land one row short of the
spec's 21/63/126/252 offsets). -/
theorem momentum_formula (tbl : PriceTable) (j i : Nat) (q : ℚ)
    (h : rollingMomentum tbl j i = some q) :
    q = 12 * (priceD tbl j i / priceD tbl j (i - 20) - 1)
      + 4 * (priceD tbl j i / priceD tbl j (i - 62) - 1)
      + 2 * (priceD tbl j i / priceD tbl j (i - 125) - 1)
      + (priceD tbl j i / priceD tbl j (i - 251) - 1) := by
  unfold rollingMomentum at h
  split at h
  · exact absurd h (by simp)
  · rename_i hge
    split at h
    · exact absurd h (by simp)
    · unfold calculate_momentum at h
      rw [if_neg (by simp)] at h
      have hgetD : ∀ m, m < 252 →
          ((((List.range 252).map (fun k => priceAt tbl j (i + 1 - 252 + k))).map
            (fun c => c.getD 0)).getD m 0) = priceD tbl j (i + 1 - 252 + m) := by
        intro m hm
        rw [List.getD_eq_getElem?_getD, List.getElem?_map, List.getElem?_map,
          List.getElem?_range hm]
        rfl
      have hlen : (((List.range 252).map (fun k => priceAt tbl j (i + 1 - 252 + k))).map
          (fun c => c.getD 0)).length = 252 := by simp
      rw [hlen] at h
      rw [hgetD (252 - 1) (by omega), hgetD (252 - 21) (by omega), hgetD (252 - 63) (by omega),
        hgetD (252 - 126) (by omega), hgetD (252 - 252) (by omega)] at h
      have e0 : i + 1 - 252 + (252 - 1) = i := by omega
      have e1 : i + 1 - 252 + (252 - 21) = i - 20 := by omega
      have e3 : i + 1 - 252 + (252 - 63) = i - 62 := by omega
      have e6 : i + 1 - 252 + (252 - 126) = i - 125 := by omega
      have e12 : i + 1 - 252 + (252 - 252) = i - 251 := by omega
      rw [e0, e1, e3, e6, e12] at h
      exact (Option.some.inj h).symm

/-- C2 witness: the amended formula evaluated on `tblC2` at row 299. -/
theorem momentum_formula_witness :
    (-6 : ℚ) = 12 * (priceD tblC2 0 299 / priceD tblC2 0 (299 - 20) - 1)
      + 4 * (priceD tblC2 0 299 / priceD tblC2 0 (299 - 62) - 1)
      + 2 * (priceD tblC2 0 299 / priceD tblC2 0 (299 - 125) - 1)
      + (priceD tblC2 0 299 / priceD tblC2 0 (299 - 251) - 1) :=
  momentum_formula tblC2 0 299 (-6) (by decide)

theorem rebalanceOutcome_some {tbl : PriceTable} {N : Nat} {d : Date}
    {pr : ℚ × List Nat} (h : rebalanceOutcome tbl N d = some pr) :
    pr.2 = topAssets tbl N d ∧ (topAssets tbl N d).length = N ∧
      windowReturns tbl (topAssets tbl N d) d ≠ [] ∧ ¬definedCount tbl d < N := by
  unfold rebalanceOutcome at h
  split at h
  · exact absurd h (by simp)
  · split at h
    · exact absurd h (by simp)
    · split at h
      · exact absurd h (by simp)
      · rename_i h1 h2 h3
        have hlenN : (topAssets tbl N d).length = N := by
          have hle : (topAssets tbl N d).length ≤ N := by
            rw [topAssets_length]
            exact Nat.min_le_left _ _
          omega
        refine ⟨?_, hlenN, fun hnil => h3 (by simp [hnil]), fun hdc => h2 ?_⟩
        · cases h
          rfl
        · rw [topAssets_length]
          omega

/-- Claim C1 (confirmed): when fewer than `N` assets have a defined momentum
score at `d`, or the holding window contains no valid return day for the
selected assets, the loop body leaves the whole state (value, history, held
assets) unchanged; and whenever the body does change the state, exactly `N`
assets were selected and recorded as held. -/
theorem simulator_skip_and_topN (tbl : PriceTable) (N : Nat) (st : PortfolioState) (d : Date) :
    ((definedCount tbl d < N ∨ windowReturns tbl (topAssets tbl N d) d = []) →
      step tbl N st d = st) ∧
    (step tbl N st d ≠ st →
      (step tbl N st d).held = some (topAssets tbl N d) ∧ (topAssets tbl N d).length = N) := by
  constructor
  · intro hA
    cases hout : rebalanceOutcome tbl N d with
    | none =>
      unfold step
      rw [hout]
    | some pr =>
      obtain ⟨-, -, hrs, hdc⟩ := rebalanceOutcome_some hout
      cases hA with
      | inl h => exact absurd h hdc
      | inr h => exact absurd h hrs
  · intro hne
    cases hout : rebalanceOutcome tbl N d with
    | none =>
      exfalso
      apply hne
      unfold step
      rw [hout]
    | some pr =>
      obtain ⟨cum, top⟩ := pr
      obtain ⟨hp2, hlen, -, -⟩ := rebalanceOutcome_some hout
      refine ⟨?_, hlen⟩
      unfold step
      rw [hout]
      simpa using hp2

/-- C1 witness: on the empty table no asset is scored, so with `N = 1` the
first skip condition holds and the state is untouched. -/
theorem simulator_skip_and_topN_witness :
    step emptyTbl 1 (initState 100) ⟨0, 31⟩ = initState 100 :=
  (simulator_skip_and_topN emptyTbl 1 (initState 100) ⟨0, 31⟩).1 (Or.inl (by decide))

/-- C3, amended: a month-end date is *excluded* from the rebalance sequence
exactly when the start date exists — i.e. some date has *all* assets'
momentum defined — and the month end is at or before (`≤`, not `<`) that
start date. -/
theorem scheduler_filter (tbl : PriceTable) (d : Date) (hd : d ∈ monthEnds tbl.dates) :
    d ∉ rebalancing_dates tbl ↔ ∃ s, momentumStartDate tbl = some s ∧ d ≤ s := by
  unfold rebalancing_dates
  cases hs : momentumStartDate tbl with
  | none =>
    simp only []
    constructor
    · intro hmem
      exact absurd hd hmem
    · rintro ⟨s, hss, -⟩
      cases hss
  | some s =>
    simp only []
    constructor
    · intro hnot
      refine ⟨s, rfl, ?_⟩
      by_contra hle
      apply hnot
      rw [List.mem_filter]
      exact ⟨hd, decide_eq_true (Date.not_le.mp hle)⟩
    · rintro ⟨s', hs', hle⟩ hmem
      cases hs'
      rw [List.mem_filter] at hmem
      exact Date.not_lt.mpr hle (of_decide_eq_true hmem.2)

/-- C3 witness: the amended characterization applied at the January month end
of `tblC4`, a table with no momentum start date. -/
theorem scheduler_filter_witness :
    ((⟨0, 31⟩ : Date) ∉ rebalancing_dates tblC4 ↔
      ∃ s, momentumStartDate tblC4 = some s ∧ (⟨0, 31⟩ : Date) ≤ s) :=
  scheduler_filter tblC4 ⟨0, 31⟩ (by decide)

/-- C4, amended: when the momentum series is entirely undefined (and there is
at least one asset column), the schedule is the *unfiltered* month-end list —
not the empty list the claim asserts — while the terminal state does equal
the initial state, every candidate date being skipped. -/
theorem empty_momentum_backtest (tbl : PriceTable) (N : Nat) (init : ℚ)
    (h0 : 0 < tbl.assets)
    (hall : ∀ i < tbl.dates.length, ∀ j < tbl.assets, rollingMomentum tbl j i = none) :
    rebalancing_dates tbl = monthEnds tbl.dates ∧ backtest tbl N init = initState init := by
  have hstart : momentumStartDate tbl = none := by
    unfold momentumStartDate
    rw [List.find?_eq_none.mpr ?_]
    · rfl
    · intro i hi
      rw [List.mem_range] at hi
      intro hAll
      have h00 := List.all_eq_true.mp hAll 0 (List.mem_range.mpr h0)
      rw [hall i hi 0 h0] at h00
      simp at h00
  have hout : ∀ d, rebalanceOutcome tbl N d = none := by
    intro d
    have hscored : scoredAt tbl d = [] := by
      unfold scoredAt
      cases hidx : idxOf d tbl.dates with
      | none => rfl
      | some i =>
        have hi := idxOf_lt_length hidx
        unfold momentumRow
        apply List.filterMap_eq_nil_iff.mpr
        intro j hj
        rw [List.mem_range] at hj
        rw [hall i hi j hj]
        rfl
    unfold rebalanceOutcome
    rw [hscored]
    rfl
  have hsim : ∀ (ds : List Date) (st : PortfolioState), simulate tbl N st ds = st := by
    intro ds
    induction ds with
    | nil => intro st; rfl
    | cons d ds ih =>
      intro st
      have hstep : step tbl N st d = st := by
        unfold step
        rw [hout d]
      show simulate tbl N (step tbl N st d) ds = st
      rw [hstep]
      exact ih st
  constructor
  · unfold rebalancing_dates
    rw [hstart]
  · unfold backtest
    exact hsim _ _

/-- C4 witness: the amended statement evaluated on `tblC4`. -/
theorem empty_momentum_backtest_witness :
    rebalancing_dates tblC4 = monthEnds tblC4.dates ∧ backtest tblC4 3 100 = initState 100 :=
  empty_momentum_backtest tblC4 3 100 (by decide) (by decide)

/-- The `(date, value)` pairs the loop appends when entered with value `v`. -/
def histFrom (tbl : PriceTable) (N : Nat) (v : ℚ) : List Date → List (Date × ℚ)
  | [] => []
  | d :: ds =>
    match rebalanceOutcome tbl N d with
    | none => histFrom tbl N v ds
    | some x => (d, v * (1 + x.1)) :: histFrom tbl N (v * (1 + x.1)) ds

theorem histFrom_nil (tbl : PriceTable) (N : Nat) (v : ℚ) : histFrom tbl N v [] = [] := rfl

theorem histFrom_cons (tbl : PriceTable) (N : Nat) (v : ℚ) (d : Date) (ds : List Date) :
    histFrom tbl N v (d :: ds) =
      match rebalanceOutcome tbl N d with
      | none => histFrom tbl N v ds
      | some x => (d, v * (1 + x.1)) :: histFrom tbl N (v * (1 + x.1)) ds := rfl

theorem simulate_value_hist (tbl : PriceTable) (N : Nat) :
    ∀ (ds : List Date) (st : PortfolioState),
      (simulate tbl N st ds).value =
        List.foldl (fun v r => v * (1 + r)) st.value (periodReturns tbl N ds) ∧
      (simulate tbl N st ds).history = st.history ++ histFrom tbl N st.value ds := by
  intro ds
  induction ds with
  | nil =>
    intro st
    refine ⟨rfl, ?_⟩
    show st.history = st.history ++ histFrom tbl N st.value []
    rw [histFrom_nil, List.append_nil]
  | cons d ds ih =>
    intro st
    cases hout : rebalanceOutcome tbl N d with
    | none =>
      have hstep : step tbl N st d = st := by
        unfold step
        rw [hout]
      have hpr : periodReturns tbl N (d :: ds) = periodReturns tbl N ds := by
        unfold periodReturns
        simp [List.filterMap_cons, hout]
      have hh : histFrom tbl N st.value (d :: ds) = histFrom tbl N st.value ds := by
        rw [histFrom_cons, hout]
      constructor
      · show (simulate tbl N (step tbl N st d) ds).value = _
        rw [hstep, hpr]
        exact (ih st).1
      · show (simulate tbl N (step tbl N st d) ds).history = _
        rw [hstep, hh]
        exact (ih st).2
    | some pr =>
      obtain ⟨cum, top⟩ := pr
      have hstep : step tbl N st d =
          ⟨st.value * (1 + cum), st.history ++ [(d, st.value * (1 + cum))], some top⟩ := by
        unfold step
        rw [hout]
      have hpr : periodReturns tbl N (d :: ds) = cum :: periodReturns tbl N ds := by
        unfold periodReturns
        simp [List.filterMap_cons, hout]
      have hh : histFrom tbl N st.value (d :: ds) =
          (d, st.value * (1 + cum)) :: histFrom tbl N (st.value * (1 + cum)) ds := by
        rw [histFrom_cons, hout]
      have hnew := ih ⟨st.value * (1 + cum), st.history ++ [(d, st.value * (1 + cum))], some top⟩
      constructor
      · show (simulate tbl N (step tbl N st d) ds).value = _
        rw [hstep, hpr, List.foldl_cons]
        exact hnew.1
      · show (simulate tbl N (step tbl N st d) ds).history = _
        rw [hstep, hh, hnew.2]
        simp

theorem values_scanl (tbl : PriceTable) (N : Nat) :
    ∀ (ds : List Date) (v : ℚ),
      v :: (histFrom tbl N v ds).map (fun x => x.2) =
        List.scanl (fun v r => v * (1 + r)) v (periodReturns tbl N ds) := by
  intro ds
  induction ds with
  | nil =>
    intro v
    rw [histFrom_nil]
    simp [periodReturns]
  | cons d ds ih =>
    intro v
    cases hout : rebalanceOutcome tbl N d with
    | none =>
      have hpr : periodReturns tbl N (d :: ds) = periodReturns tbl N ds := by
        unfold periodReturns
        simp [List.filterMap_cons, hout]
      have hh : histFrom tbl N v (d :: ds) = histFrom tbl N v ds := by
        rw [histFrom_cons, hout]
      rw [hh, hpr]
      exact ih v
    | some pr =>
      have hpr : periodReturns tbl N (d :: ds) = pr.1 :: periodReturns tbl N ds := by
        unfold periodReturns
        simp [List.filterMap_cons, hout]
      have hh : histFrom tbl N v (d :: ds) =
          (d, v * (1 + pr.1)) :: histFrom tbl N (v * (1 + pr.1)) ds := by
        rw [histFrom_cons, hout]
      rw [hh, hpr, List.scanl_cons, List.map_cons]
      rw [show ((d, v * (1 + pr.1))).2 = v * (1 + pr.1) from rfl]
      rw [ih (v * (1 + pr.1))]
      rfl

/-- Claim C7 (confirmed): the recorded value sequence (initial capital
followed by the history values) is exactly the scan of
`v * (1 + r)` over the realized period returns starting from the initial
capital, and the terminal portfolio value is the corresponding fold — so
replaying the period returns from the initial capital reproduces every
recorded value and the final value exactly. -/
theorem compounding_law (tbl : PriceTable) (N : Nat) (init : ℚ) :
    portfolioValues init (backtest tbl N init) =
      List.scanl (fun v r => v * (1 + r)) init
        (periodReturns tbl N (rebalancing_dates tbl)) ∧
    (backtest tbl N init).value =
      List.foldl (fun v r => v * (1 + r)) init
        (periodReturns tbl N (rebalancing_dates tbl)) := by
  have h := simulate_value_hist tbl N (rebalancing_dates tbl) (initState init)
  constructor
  · show init :: (backtest tbl N init).history.map (fun x => x.2) = _
    unfold backtest
    rw [h.2]
    show init :: (([] : List (Date × ℚ)) ++ histFrom tbl N init (rebalancing_dates tbl)).map
        (fun x => x.2) = _
    rw [List.nil_append]
    exact values_scanl tbl N (rebalancing_dates tbl) init
  · unfold backtest
    rw [h.1]
    rfl

/-- Claim C9 (confirmed): the simulation is a pure function of the price
table, the momentum-derived inputs, the candidate date sequence, `N` and the
initial capital — two runs on identical inputs yield identical history and
identical final holdings. -/
theorem simulator_deterministic (tbl tbl' : PriceTable) (N N' : Nat) (init init' : ℚ)
    (ds ds' : List Date) (ht : tbl = tbl') (hN : N = N') (hi : init = init')
    (hd : ds = ds') :
    (simulate tbl N (initState init) ds).history =
        (simulate tbl' N' (initState init') ds').history ∧
      (simulate tbl N (initState init) ds).held =
        (simulate tbl' N' (initState init') ds').held := by
  subst ht
  subst hN
  subst hi
  subst hd
  exact ⟨rfl, rfl⟩

/-- C9 witness: the determinism theorem applied at concrete equal inputs. -/
theorem simulator_deterministic_witness :
    (simulate emptyTbl 1 (initState 1) []).history =
        (simulate emptyTbl 1 (initState 1) []).history ∧
      (simulate emptyTbl 1 (initState 1) []).held =
        (simulate emptyTbl 1 (initState 1) []).held :=
  simulator_deterministic emptyTbl emptyTbl 1 1 1 1 [] [] rfl rfl rfl rfl

/-- C8, amended: the reported MTD value divides the last entry of the value
sequence *headed by the initial capital* by the entry before it and scales by
100; with an empty history (no successful rebalance) it is 0, but after a
single successful rebalance the denominator is the initial capital itself,
not a second history entry. -/
theorem mtd_formula (init : ℚ) (st : PortfolioState) :
    (st.history = [] → portfolio_mtd_return init st = 0) ∧
    (∀ pre d v, st.history = pre ++ [(d, v)] →
      portfolio_mtd_return init st =
        (v / (init :: pre.map (fun x => x.2)).getLastD 0 - 1) * 100) := by
  constructor
  · intro h
    unfold portfolio_mtd_return portfolioValues
    rw [h]
    rfl
  · intro pre d v h
    unfold portfolio_mtd_return portfolioValues
    rw [h]
    have hvs : init :: (pre ++ [(d, v)]).map (fun x => x.2) =
        (init :: pre.map (fun x => x.2)) ++ [v] := by
      simp
    rw [hvs]
    have hplen : (init :: pre.map (fun x => x.2)).length = pre.length + 1 := by
      simp
    have hpos : 1 < ((init :: pre.map (fun x => x.2)) ++ [v]).length := by
      simp only [List.length_append, hplen, List.length_cons]
      omega
    rw [if_pos hpos]
    have h1 : ((init :: pre.map (fun x => x.2)) ++ [v]).length - 1 =
        (init :: pre.map (fun x => x.2)).length := by
      simp
    have h2 : ((init :: pre.map (fun x => x.2)) ++ [v]).length - 2 =
        (init :: pre.map (fun x => x.2)).length - 1 := by
      simp only [List.length_append, hplen, List.length_cons, List.length_nil]
      omega
    rw [h1, h2, List.getD_eq_getElem?_getD, List.getD_eq_getElem?_getD,
      List.getElem?_concat_length]
    have h3 : ((init :: pre.map (fun x => x.2)) ++ [v])[(init ::
        pre.map (fun x => x.2)).length - 1]? =
        (init :: pre.map (fun x => x.2))[(init :: pre.map (fun x => x.2)).length - 1]? := by
      rw [List.getElem?_append]
      rw [if_pos (by rw [hplen]; omega)]
    rw [h3, ← List.getLast?_eq_getElem?, ← List.getLastD_eq_getLast?]
    rfl

/-- C8 witness: a run with no successful rebalance reports an MTD of 0. -/
theorem mtd_formula_witness :
    portfolio_mtd_return 5 (backtest emptyTbl 1 5) = 0 :=
  (mtd_formula 5 (backtest emptyTbl 1 5)).1 (by decide)

/-- Positivity of an optional price cell (`none` is vacuously fine). -/
def posCell : Option ℚ → Bool
  | none => true
  | some p => decide (0 < p)

/-- Every present price in the table is positive. -/
def PosTable (tbl : PriceTable) : Prop :=
  ∀ r ∈ tbl.rows, ∀ c ∈ r, posCell c = true

instance (tbl : PriceTable) : Decidable (PosTable tbl) :=
  inferInstanceAs (Decidable (∀ r ∈ tbl.rows, ∀ c ∈ r, posCell c = true))

theorem priceAt_pos {tbl : PriceTable} {j i : Nat} {p : ℚ}
    (hP : PosTable tbl) (h : priceAt tbl j i = some p) : 0 < p := by
  unfold priceAt at h
  by_cases hi : i < tbl.rows.length
  · have hrow : tbl.rows.getD i [] ∈ tbl.rows := by
      rw [List.getD_eq_getElem _ _ hi]
      exact List.getElem_mem hi
    by_cases hj : j < (tbl.rows.getD i []).length
    · have hmem : (some p : Option ℚ) ∈ tbl.rows.getD i [] := by
        rw [← h, List.getD_eq_getElem _ _ hj]
        exact List.getElem_mem hj
      exact of_decide_eq_true (hP _ hrow _ hmem)
    · rw [@List.getD_eq_default _ (tbl.rows.getD i []) none j (by omega)] at h
      exact absurd h (by simp)
  · rw [@List.getD_eq_default _ tbl.rows [] i (by omega)] at h
    rw [List.getD_eq_getElem?_getD] at h
    simp at h

theorem assetRet_pos {tbl : PriceTable} {j a b : Nat} {r : ℚ}
    (hP : PosTable tbl) (h : assetRet tbl j a b = some r) : 0 < 1 + r := by
  unfold assetRet at h
  split at h
  · rename_i pb pa hpb hpa
    have hr := Option.some.inj h
    have h1 : 0 < pb := priceAt_pos hP hpb
    have h2 : 0 < pa := priceAt_pos hP hpa
    rw [← hr, show (1 : ℚ) + (pb / pa - 1) = pb / pa from by ring]
    exact div_pos h1 h2
  · exact absurd h (by simp)

theorem windowReturns_pos {tbl : PriceTable} {top : List Nat} {d : Date}
    (hP : PosTable tbl) : ∀ m ∈ windowReturns tbl top d, 0 < 1 + m := by
  intro m hm
  unfold windowReturns at hm
  rw [List.mem_filterMap] at hm
  obtain ⟨p, hp, hpm⟩ := hm
  split at hpm
  · exact absurd hpm (by simp)
  · rename_i hany
    have hany' : ((top.map (fun j => assetRet tbl j p.1 p.2)).any (·.isNone)) = false := by
      cases hb : (top.map (fun j => assetRet tbl j p.1 p.2)).any (·.isNone)
      · rfl
      · exact absurd hb hany
    have hm' := Option.some.inj hpm
    by_cases htop : top = []
    · subst htop
      rw [← hm']
      norm_num
    · have hLlen : ((top.map (fun j => assetRet tbl j p.1 p.2)).filterMap id).length =
          top.length := by
        rw [filterMap_id_length hany', List.length_map]
      have hpos : ∀ r ∈ (top.map (fun j => assetRet tbl j p.1 p.2)).filterMap id,
          0 < 1 + r := by
        intro r hr
        obtain ⟨a, ha, hax⟩ := List.mem_filterMap.mp hr
        obtain ⟨j, hj, hja⟩ := List.mem_map.mp ha
        exact assetRet_pos hP (by rw [hja]; exact hax)
      have hLne : (top.map (fun j => assetRet tbl j p.1 p.2)).filterMap id ≠ [] := by
        intro h0
        rw [h0] at hLlen
        exact htop (List.length_eq_zero.mp hLlen.symm)
      have hsum : 0 < (((top.map (fun j => assetRet tbl j p.1 p.2)).filterMap id).map
          (fun r => 1 + r)).sum := by
        apply List.sum_pos
        · intro x hx
          obtain ⟨r, hr, hrx⟩ := List.mem_map.mp hx
          rw [← hrx]
          exact hpos r hr
        · intro hmapnil
          exact hLne (List.map_eq_nil_iff.mp hmapnil)
      have hn : (0 : ℚ) < (top.length : ℚ) := by
        exact_mod_cast Nat.pos_of_ne_zero (fun h0 => htop (List.length_eq_zero.mp h0))
      rw [← hm']
      rw [show (1 : ℚ) + ((top.map (fun j => assetRet tbl j p.1 p.2)).filterMap id).sum
          / (top.length : ℚ) =
          ((top.length : ℚ) + ((top.map (fun j => assetRet tbl j p.1 p.2)).filterMap id).sum)
          / (top.length : ℚ) from by field_simp]
      apply div_pos _ hn
      rw [show ((top.length : ℚ) + ((top.map (fun j => assetRet tbl j p.1 p.2)).filterMap
          id).sum) = (((top.map (fun j => assetRet tbl j p.1 p.2)).filterMap id).length : ℚ)
          + ((top.map (fun j => assetRet tbl j p.1 p.2)).filterMap id).sum from by
        rw [hLlen]]
      rw [← sum_map_one_add]
      exact hsum

/-- The positivity invariant carried through the simulation. -/
def posState (st : PortfolioState) : Prop :=
  0 < st.value ∧ ∀ x ∈ st.history, 0 < x.2

theorem step_posState {tbl : PriceTable} {N : Nat} {st : PortfolioState} {d : Date}
    (hP : PosTable tbl) (h : posState st) : posState (step tbl N st d) := by
  cases hout : rebalanceOutcome tbl N d with
  | none =>
    unfold step
    rw [hout]
    exact h
  | some pr =>
    obtain ⟨cum, top⟩ := pr
    have hcum : cum =
        ((windowReturns tbl (topAssets tbl N d) d).map (fun r => 1 + r)).prod - 1 := by
      unfold rebalanceOutcome at hout
      split at hout
      · exact absurd hout (by simp)
      · split at hout
        · exact absurd hout (by simp)
        · split at hout
          · exact absurd hout (by simp)
          · have := Option.some.inj hout
            rw [Prod.mk.injEq] at this
            exact this.1.symm
    have hfac : 0 < 1 + cum := by
      rw [hcum, show (1 : ℚ) + (((windowReturns tbl (topAssets tbl N d) d).map
          (fun r => 1 + r)).prod - 1) = ((windowReturns tbl (topAssets tbl N d) d).map
          (fun r => 1 + r)).prod from by ring]
      apply List.prod_pos
      intro a ha
      obtain ⟨r, hr, hra⟩ := List.mem_map.mp ha
      rw [← hra]
      exact windowReturns_pos hP r hr
    have hstep : step tbl N st d =
        ⟨st.value * (1 + cum), st.history ++ [(d, st.value * (1 + cum))], some top⟩ := by
      unfold step
      rw [hout]
    rw [hstep]
    constructor
    · exact mul_pos h.1 hfac
    · intro x hx
      rw [List.mem_append] at hx
      cases hx with
      | inl hx => exact h.2 x hx
      | inr hx =>
        rw [List.mem_singleton] at hx
        subst hx
        exact mul_pos h.1 hfac

theorem simulate_posState {tbl : PriceTable} {N : Nat} (hP : PosTable tbl) :
    ∀ (ds : List Date) (st : PortfolioState), posState st → posState (simulate tbl N st ds) := by
  intro ds
  induction ds with
  | nil => intro st h; exact h
  | cons d ds ih =>
    intro st h
    show posState (simulate tbl N (step tbl N st d) ds)
    exact ih _ (step_posState hP h)

/-- Claim C10 (confirmed): with every present price positive and a positive
initial capital, the terminal portfolio value and every entry of the recorded
value sequence stay positive through all rebalance transitions. -/
theorem value_positive (tbl : PriceTable) (N : Nat) (init : ℚ)
    (hP : PosTable tbl) (hinit : 0 < init) :
    0 < (backtest tbl N init).value ∧
      ∀ v ∈ portfolioValues init (backtest tbl N init), 0 < v := by
  have hinitState : posState (initState init) := by
    refine ⟨hinit, ?_⟩
    intro x hx
    simp [initState] at hx
  have h := @simulate_posState tbl N hP (rebalancing_dates tbl) (initState init) hinitState
  refine ⟨h.1, ?_⟩
  intro v hv
  unfold portfolioValues at hv
  rw [List.mem_cons] at hv
  cases hv with
  | inl h' => rw [h']; exact hinit
  | inr h' =>
    obtain ⟨x, hx, hxv⟩ := List.mem_map.mp h'
    rw [← hxv]
    exact h.2 x hx

/-- C10 witness: positivity at a concrete run. -/
theorem value_positive_witness :
    0 < (backtest emptyTbl 1 1).value :=
  (value_positive emptyTbl 1 1 (by decide) (by decide)).1

/-- C2, counterexample: at row 299 of `tblC2` (price 2 exactly 20 trading days
before the evaluation row, 1 everywhere else) the code computes score −6 —
`prices.iloc[-21]` is 20 rows before `prices.iloc[-1]` — while the claimed
formula, whose `p1` sits 21 trading days before `p0`, gives 0. -/
theorem momentum_offsets_counterexample :
    rollingMomentum tblC2 0 299 = some (-6) ∧ specMomentum tblC2 0 299 = some 0 ∧
      rollingMomentum tblC2 0 299 ≠ specMomentum tblC2 0 299 := by
  refine ⟨by decide, by decide, ?_⟩
  intro h
  rw [show rollingMomentum tblC2 0 299 = some (-6) from by decide,
    show specMomentum tblC2 0 299 = some 0 from by decide] at h
  exact absurd (Option.some.inj h) (by decide)

/-- C3, counterexample: in `tblC3` asset 1 is never observed, so
`momentum.dropna()` is empty and the start-date filter is skipped entirely:
January 31 stays in the rebalance sequence although it lies strictly before
September 30, the first date at which at least one asset (asset 0) has a
defined momentum score. -/
theorem scheduler_filter_counterexample :
    (⟨0, 31⟩ : Date) ∈ rebalancing_dates tblC3 ∧
      firstAnyDefinedDate tblC3 = some ⟨8, 30⟩ ∧
      ((⟨0, 31⟩ : Date) < ⟨8, 30⟩) := by
  refine ⟨by decide, by decide, by decide⟩

/-- C4, counterexample: in `tblC4` (three trading dates, far under 252) the
momentum series is entirely undefined, yet the produced rebalance-date
sequence is *not* empty: with `momentum.dropna()` empty the guard
`if momentum_start_date:` skips the filter, leaving every month end. -/
theorem empty_momentum_schedule_counterexample :
    (∀ i < tblC4.dates.length, ∀ j < tblC4.assets, rollingMomentum tblC4 j i = none) ∧
      rebalancing_dates tblC4 ≠ [] := by
  refine ⟨by decide, by decide⟩

/-- C5, failing input: in `tblC5` January 31 is not a trading date (the month's
trading stops at January 30), yet `data.resample('M').last().index` emits
January 31 as the rebalance date — the schedule is not a subset of the
price table's date set. -/
theorem month_end_not_trading_date :
    rebalancing_dates tblC5 = [⟨0, 31⟩] ∧ (⟨0, 31⟩ : Date) ∉ tblC5.dates := by
  refine ⟨by decide, by decide⟩

/-- C8, counterexample: `tblC8` produces exactly one successful rebalance
(October 31, period return 1), so the simulator's history has a single entry
and the claim demands an MTD return of zero; the code instead divides the
last portfolio value by the initial capital (which heads `portfolio_values`)
and scales by 100, reporting 100. -/
theorem mtd_counterexample :
    portfolio_mtd_return 100 (backtest tblC8 1 100) = 100 ∧
      claimMtd (backtest tblC8 1 100) = 0 ∧
      (backtest tblC8 1 100).history.length = 1 ∧ ((100 : ℚ) ≠ 0) := by
  refine ⟨by decide, by decide, by decide, by decide⟩

end Marco
